import Mathlib

/-!
# Verification of the `List<T>` doubly-linked list (`src/List.h`)

Shallow embedding of the `List<T>` container from `src/List.h`.

The C++ object owns a doubly-linked chain of nodes plus a cached
`tailNode`, a `listSize` counter and an `isSorted` flag.  The public
operations keep the chain a well-formed doubly-linked chain — `tailNode`
the last node reachable from `headNode`, every interior link satisfying
`a->next->prev == a`, the `prev` chain the reverse of the `next` chain
(after `sort()` a dedicated pass rebuilds `prev`/`tail`) — with one
exception: `reverse()` swaps the freshly computed `headNode` with the
never-updated `tailNode`, leaving the tail cache on the new head (see
`reverseRaw` and claim C3).  The sequence model `ListState` below tracks
the forward traversal from `headNode`, `listSize` and `isSorted`,
exactly the observables of a single application of each operation from a
well-formed state; the pointer-level model `RawList` further down keeps
the node heap and both cached pointers and exhibits the tail-cache
corruption that compositions through `reverse()` run into.
Situations where the C++ would dereference a null or dangling pointer
(not produced by the public operations) are completed arbitrarily and
marked in comments.

Element types: the C++ is generic over `T` with `<, <=, >, >=, ==`.
Definitions are generic over a `LinearOrder`, theorems are stated at
`T = Int` (a faithful instance: `int` is the ubiquitous instantiation).
-/

namespace LinkedList

/-- The error kinds thrown by `List<T>` (`std::out_of_range`,
`std::underflow_error`, `std::logic_error`). -/
inductive Err where
  | outOfRange
  | underflow
  | logicError
deriving DecidableEq, Repr

/-- Abstract state of a `List<T>` object: the forward node chain as a
sequence, the `listSize` counter and the `isSorted` flag (`src/List.h`
lines 29-32). -/
structure ListState (α : Type) where
  elems : List α
  listSize : Nat
  isSorted : Bool
deriving DecidableEq, Repr

variable {α : Type} [LinearOrder α]

/-- The default constructor `List()` (line 382): null head/tail, size 0,
`isSorted = true`. -/
def initList : ListState α := ⟨[], 0, true⟩

/-- `List<T>::pushFront(const T&)` (lines 481-498).  The sortedness flag
is cleared when the list was non-empty, flagged sorted, and the new value
is greater than the former head. -/
def pushFront (s : ListState α) (v : α) : ListState α :=
  if s.listSize = 0 then
    -- `empty()` is `listSize == 0`; head and tail are set to the new node
    { elems := [v], listSize := s.listSize + 1, isSorted := s.isSorted }
  else
    match s.elems with
    | [] =>
      -- null `headNode` dereference in C++; unreachable when `listSize`
      -- agrees with the chain (arbitrary completion)
      { elems := [v], listSize := s.listSize + 1, isSorted := s.isSorted }
    | h :: t =>
      { elems := v :: h :: t, listSize := s.listSize + 1,
        isSorted := if s.isSorted ∧ h < v then false else s.isSorted }

/-- `List<T>::pushBack(const T&)` (lines 520-537).  The sortedness flag
is cleared when the list was non-empty, flagged sorted, and the new value
is less than the former tail. -/
def pushBack (s : ListState α) (v : α) : ListState α :=
  if s.listSize = 0 then
    { elems := [v], listSize := s.listSize + 1, isSorted := s.isSorted }
  else
    match s.elems.getLast? with
    | none =>
      -- null `tailNode` dereference in C++; unreachable (arbitrary completion)
      { elems := [v], listSize := s.listSize + 1, isSorted := s.isSorted }
    | some tl =>
      { elems := s.elems ++ [v], listSize := s.listSize + 1,
        isSorted := if s.isSorted ∧ v < tl then false else s.isSorted }

/-- Unlink of the head node, the non-throwing part of `popFront`
(lines 802-812): when `listSize == 1` head and tail become null,
otherwise the head advances; the flag is untouched. -/
def popFrontGo (s : ListState α) : ListState α :=
  if s.listSize = 1 then
    { elems := [], listSize := s.listSize - 1, isSorted := s.isSorted }
  else
    { elems := s.elems.tail, listSize := s.listSize - 1, isSorted := s.isSorted }

/-- `List<T>::popFront()` (lines 796-813): throws `underflow_error` on an
empty list. -/
def popFront (s : ListState α) : Except Err (ListState α) :=
  if s.listSize = 0 then .error .underflow else .ok (popFrontGo s)

/-- Unlink of the tail node, the non-throwing part of `popBack`
(lines 833-843). -/
def popBackGo (s : ListState α) : ListState α :=
  if s.listSize = 1 then
    { elems := [], listSize := s.listSize - 1, isSorted := s.isSorted }
  else
    { elems := s.elems.dropLast, listSize := s.listSize - 1, isSorted := s.isSorted }

/-- `List<T>::popBack()` (lines 827-844): throws `underflow_error` on an
empty list. -/
def popBack (s : ListState α) : Except Err (ListState α) :=
  if s.listSize = 0 then .error .underflow else .ok (popBackGo s)

/-- `List<T>::clear()` loop body (lines 1468-1472): `while (!empty())
popFront();`.  Terminates because each `popFront` decrements `listSize`. -/
def clearLoop (s : ListState α) : ListState α :=
  if s.listSize = 0 then s else clearLoop (popFrontGo s)
termination_by s.listSize
decreasing_by
  simp only [popFrontGo]
  split <;> simp <;> omega

/-- `List<T>::clear()` (lines 1467-1473): pops every node, then sets
`isSorted = true`. -/
def clear (s : ListState α) : ListState α :=
  { clearLoop s with isSorted := true }

/-- `List<T>::reverse()` (lines 1476-1498) as observed on the forward
sequence and the flag: early return for `listSize <= 1` (the state fully
unchanged); otherwise the pointer-swap pass reverses the chain — the
forward traversal from the new `headNode` is the reversed sequence — and
`isSorted` is cleared.  The source's closing `std::swap(headNode,
tailNode)` (line 1496) additionally leaves the `tailNode` cache pointing
at the new head instead of the last node; that corruption is invisible
to the forward sequence and the flag modelled here, and is analysed at
the pointer level by `reverseRaw` (claim C3). -/
def reverse (s : ListState α) : ListState α :=
  if s.listSize ≤ 1 then s
  else { elems := s.elems.reverse, listSize := s.listSize, isSorted := false }

/-- The element-wise walk of `operator==` (lines 1689-1700): advance both
cursors while both are non-null comparing data; afterwards both must be
null. -/
def eqWalk [DecidableEq α] : List α → List α → Bool
  | a :: l, b :: r => if a = b then eqWalk l r else false
  | l, r => l.isEmpty && r.isEmpty

/-- One heap node of `List<T>` (`src/List.h` lines 15-27): a value and
the two links, a link being a node id (index into the heap list) or
null. -/
structure Node (α : Type) where
  data : α
  next : Option Nat
  prev : Option Nat
deriving DecidableEq, Repr

/-- Pointer-level state of a `List<T>` object: the node heap (node id =
position in this list; `reverse` neither allocates nor frees, so ids are
stable), the cached `headNode` and `tailNode` pointers, `listSize` and
`isSorted`.  Used to analyse `reverse()`, whose effect on the `tailNode`
cache the sequence model cannot express. -/
structure RawList (α : Type) where
  nodes : List (Node α)
  headNode : Option Nat
  tailNode : Option Nat
  listSize : Nat
  isSorted : Bool
deriving DecidableEq, Repr

/-- The pointer-swap loop of `reverse()` (lines 1485-1490): per
iteration `temp = current->prev; current->prev = current->next;
current->next = temp; current = current->prev` (the old `next`).
Returns the updated heap and the final value of `temp`.  The C++ loop
runs until `current == nullptr`; the fuel bounds the walk (callers pass
more fuel than the heap has nodes, enough for every acyclic chain — the
only shapes the operations create; reading a dangling id is undefined in
the C++ and stops the walk here). -/
def reverseLoop : Nat → List (Node α) → Option Nat → Option Nat →
    List (Node α) × Option Nat
  | 0, nodes, _, temp => (nodes, temp)
  | _, nodes, none, temp => (nodes, temp)
  | f + 1, nodes, some c, temp =>
    match nodes[c]? with
    | none => (nodes, temp)
    | some nd =>
      reverseLoop f (nodes.set c { nd with next := nd.prev, prev := nd.next })
        nd.next nd.prev

/-- `List<T>::reverse()` (lines 1476-1498) at the pointer level,
verbatim: the early return, the pointer-swap loop, the guarded
`headNode = temp->prev` (which already computes the new head), and the
closing `std::swap(headNode, tailNode)` with the never-updated
`tailNode` — so the final `headNode` is the old `tailNode` value and the
final `tailNode` is the freshly computed new head. -/
def reverseRaw (s : RawList α) : RawList α :=
  if s.listSize ≤ 1 then s
  else
    let p := reverseLoop (s.nodes.length + 1) s.nodes s.headNode none
    let newHead :=
      match p.2 with
      | none => s.headNode
      | some t =>
        match p.1[t]? with
        | none => s.headNode
        | some nd => nd.prev
    { s with nodes := p.1, headNode := s.tailNode, tailNode := newHead,
             isSorted := false }

/-- Forward traversal of the node heap from a pointer, collecting `data`
along `next` links, as `operator==` and `print` walk the chain.  The
fuel bounds the walk (callers pass the heap size, enough for every
acyclic chain). -/
def traverseFrom (nodes : List (Node α)) : Nat → Option Nat → List α
  | 0, _ => []
  | _ + 1, none => []
  | f + 1, some c =>
    match nodes[c]? with
    | none => []
    | some nd => nd.data :: traverseFrom nodes f nd.next

/-- `List<T>::operator==` (lines 1683-1701) at the pointer level: sizes
must agree, then both chains are walked from their `headNode`s comparing
data, and both walks must end together. -/
def rawEq [DecidableEq α] (s t : RawList α) : Bool :=
  if s.listSize ≠ t.listSize then false
  else eqWalk (traverseFrom s.nodes s.nodes.length s.headNode)
    (traverseFrom t.nodes t.nodes.length t.headNode)

/-- The well-formed two-element list `[1, 2]`: node 0 holds 1 (head,
`next` node 1), node 1 holds 2 (tail); size 2, flag up — the state
`pushBack(1); pushBack(2)` builds. -/
def rawTwo : RawList Int :=
  ⟨[⟨1, some 1, none⟩, ⟨2, none, some 0⟩], some 0, some 1, 2, true⟩

/-- The private chain merge `List<T>::merge(Node* left, Node* right)`
(lines 1347-1363), parameterized by the boolean comparison performed at
`left->data <= right->data`; the list itself always instantiates it with
the default `<=`.  The two-pointer loops of `List<T>::merge(List&)`
(lines 1408-1429) and of its comparator overload (lines 1442-1460)
produce exactly the same sequence, so this definition models those
loops as well. -/
def mergeBy (le : α → α → Bool) : List α → List α → List α
  | [], r => r
  | l, [] => l
  | a :: l, b :: r =>
      if le a b then a :: mergeBy le l (b :: r) else b :: mergeBy le (a :: l) r
termination_by l r => l.length + r.length

/-- The private `List<T>::mergeSort(Node* head)` (lines 1319-1345),
again parameterized by the comparison used by the merges.  The slow/fast
pointer walk cuts a chain of `n >= 2` nodes after node `n/2 - 1`
(`slow` advances once per loop iteration, `fast` twice; the loop runs
`n/2` times), so the left half is the first `n/2` elements and the right
half the rest. -/
def mergeSortBy (le : α → α → Bool) (l : List α) : List α :=
  if h : l.length ≤ 1 then l
  else
    mergeBy le (mergeSortBy le (l.take (l.length / 2)))
      (mergeSortBy le (l.drop (l.length / 2)))
termination_by l.length
decreasing_by
  · simp [List.length_take]; omega
  · simp [List.length_drop]; omega

/-- The default-order merge sort used by `sort()`: `mergeSort` with the
element type's `<=`. -/
def mergeSort (l : List α) : List α :=
  mergeSortBy (fun a b => decide (a ≤ b)) l

/-- `List<T>::sort()` (lines 1267-1288): for `listSize <= 1` only the
flag is set; otherwise the chain is merge-sorted and `isSorted := true`.
The pass that rebuilds `prev` links and `tailNode` (lines 1277-1285) is
the identity on the forward sequence. -/
def sort (s : ListState α) : ListState α :=
  if s.listSize ≤ 1 then { s with isSorted := true }
  else { elems := mergeSort s.elems, listSize := s.listSize, isSorted := true }

/-- The traversal of `List<T>::isSortedCheck()` (lines 1372-1380):
walk the chain and fail on the first adjacent pair with
`current->data > current->next->data`. -/
def isSortedChain : List α → Bool
  | a :: b :: t => if b < a then false else isSortedChain (b :: t)
  | _ => true

/-- `List<T>::isSortedCheck()` (lines 1366-1381): `true` outright for
`listSize <= 1`, otherwise the adjacent-pair walk. -/
def isSortedCheck (s : ListState α) : Bool :=
  if s.listSize ≤ 1 then true else isSortedChain s.elems

/-- `List<T>::insert(size_t index, const T&)` (lines 559-581): throws
`out_of_range` for `index > listSize`; delegates to `pushFront` at 0 and
`pushBack` at `listSize`; an interior splice places the new node before
the node at `index` and clears the flag unconditionally (line 579). -/
def insertAt (s : ListState α) (index : Nat) (v : α) : Except Err (ListState α) :=
  if index > s.listSize then .error .outOfRange
  else if index = 0 then .ok (pushFront s v)
  else if index = s.listSize then .ok (pushBack s v)
  else
    .ok { elems := s.elems.take index ++ v :: s.elems.drop index,
          listSize := s.listSize + 1, isSorted := false }

/-- `List<T>::removeAt(size_t)` (lines 858-875): throws `out_of_range`
for `index >= listSize`; delegates to the pops at the ends; an interior
unlink removes the node at `index` and leaves the flag untouched. -/
def removeAt (s : ListState α) (index : Nat) : Except Err (ListState α) :=
  if index ≥ s.listSize then .error .outOfRange
  else if index = 0 then .ok (popFrontGo s)
  else if index = s.listSize - 1 then .ok (popBackGo s)
  else
    .ok { elems := s.elems.take index ++ s.elems.drop (index + 1),
          listSize := s.listSize - 1, isSorted := s.isSorted }

/-- `List<T>::insertSorted(const T&)` (lines 734-763): sorts first when
the flag is down; then pushes at the matching end, or scans
(`while current->data < value`) and splices before the stop node,
leaving `isSorted` as is (the code comment notes it stays `true`). -/
def insertSorted (s : ListState α) (v : α) : ListState α :=
  let s1 := if ¬ s.isSorted then sort s else s
  if s1.listSize = 0 then pushFront s1 v
  else
    match s1.elems with
    | [] =>
      -- null `headNode` dereference in C++; unreachable (arbitrary completion)
      pushFront s1 v
    | h :: t =>
      if v ≤ h then pushFront s1 v
      else if (h :: t).getLastD h ≤ v then pushBack s1 v
      else
        { elems := (h :: t).takeWhile (fun x => decide (x < v))
            ++ v :: (h :: t).dropWhile (fun x => decide (x < v)),
          listSize := s1.listSize + 1, isSorted := s1.isSorted }

/-- `std::sort(temp.begin(), temp.end(), comparator)` as invoked at line
1307.  `std::sort` is C++ standard-library code, not part of this
repository; it is modelled by its documented contract — the buffer is
permuted into an order consistent with the comparator (no element is
strictly preceded, under the comparator, by a later one) — realized here
as the merge sort over `le a b := !comp b a`. -/
def stdSort (comp : α → α → Bool) (l : List α) : List α :=
  mergeSortBy (fun a b => !(comp b a)) l

/-- `List<T>::sort(comparator)` (lines 1290-1316): for `listSize <= 1`
it returns with `isSorted = false`; otherwise it copies the chain into a
temporary buffer, sorts the buffer with the comparator, writes the
values back in chain order, and again sets `isSorted = false` (the flag
tracks default-order sortedness only). -/
def sortWith (comp : α → α → Bool) (s : ListState α) : ListState α :=
  if s.listSize ≤ 1 then { s with isSorted := false }
  else { elems := stdSort comp s.elems, listSize := s.listSize, isSorted := false }

/-- `List<T>::forEach(std::function<void(T&)>)` (lines 1573-1580):
applies `func` to every element through a mutable reference, in chain
order; links, `listSize` and `isSorted` are untouched.  Pure model of
the in-place update: each element is replaced by `f` of its value. -/
def forEach (f : α → α) (s : ListState α) : ListState α :=
  { s with elems := s.elems.map f }

/-- The fresh `result` list of `merge(List&)` (lines 1406-1429): a
default-constructed list fed the merged sequence through `pushBack`. -/
def buildByPushBack (l : List α) : ListState α :=
  l.foldl pushBack initList

/-- `List<T>::merge(List& other)` (lines 1401-1433): sorts either
operand whose flag is down, walks both chains two-pointer style
(left-biased on ties, `current1->data <= current2->data`) pushing the
values onto a fresh list, move-assigns that list into `this`, and clears
`other`.  Returns the final `(this, other)` pair. -/
def mergeLists (s t : ListState α) : ListState α × ListState α :=
  let s1 := if ¬ s.isSorted then sort s else s
  let t1 := if ¬ t.isSorted then sort t else t
  (buildByPushBack (mergeBy (fun a b => decide (a ≤ b)) s1.elems t1.elems), clear t1)

/-- The iterative loop shared verbatim by `binarySearch` (lines
1198-1213) and `binarySearchIndex` (lines 1228-1243): returns the index
where `at(mid) == value` holds, or none when the search space is
exhausted; `if (mid == 0) break` guards the size_t decrement.  Every
probe has `mid <= right < listSize`, so `at(mid)` never throws; on a
size-consistent state the chain walk yields `elems[mid]` (on an
inconsistent one the C++ walk runs off the chain — undefined behaviour —
modelled by the `getD` default). -/
def bsLoop (l : List α) (v : α) (left right : Nat) : Option Nat :=
  if left ≤ right then
    let mid := left + (right - left) / 2
    let midValue := l.getD mid v
    if midValue = v then some mid
    else if midValue < v then bsLoop l v (mid + 1) right
    else if mid = 0 then none
    else bsLoop l v left (mid - 1)
  else none
termination_by right + 1 - left
decreasing_by
  · omega
  · omega

/-- `List<T>::binarySearch(const T&)` (lines 1188-1216): throws
`logic_error` when the flag is down (it never re-checks by scanning),
returns false on an empty list, and otherwise reports whether the loop
found the value. -/
def binarySearch (s : ListState α) (v : α) : Except Err Bool :=
  if s.isSorted = false then .error .logicError
  else if s.listSize = 0 then .ok false
  else .ok (bsLoop s.elems v 0 (s.listSize - 1)).isSome

/-- `List<T>::binarySearchIndex(const T&)` (lines 1218-1246): same
guard and loop, returning the found index cast to int, or -1. -/
def binarySearchIndex (s : ListState α) (v : α) : Except Err Int :=
  if s.isSorted = false then .error .logicError
  else if s.listSize = 0 then .ok (-1)
  else
    match bsLoop s.elems v 0 (s.listSize - 1) with
    | some m => .ok (m : Int)
    | none => .ok (-1)

/-- `List<T>::checkIntegrity()` (lines 1784-1835).  In the sequence
model the chain is a well-formed doubly-linked chain: the forward
traversal from `headNode` visits `elems` in order and ends at the last
node, which is `tailNode` (so `current->next == nullptr && current !=
tailNode` cannot fire), the backward traversal from `tailNode` visits
the same nodes reversed ending at `headNode`, and `a->next->prev == a`
holds for every adjacent pair; every operation of the source maintains
this shape (after `sort()` a dedicated pass rebuilds `prev`/`tail`).
What remains observable are the null checks of the `listSize == 0` and
`listSize == 1` fast paths and the two traversal-count comparisons. -/
def checkIntegrity (s : ListState α) : Bool :=
  if s.listSize = 0 then
    s.elems.isEmpty
  else if s.listSize = 1 then
    s.elems.length == 1
  else
    (s.elems.length == s.listSize) && (s.elems.length == s.listSize)

/-- `listSize` agrees with the length of the chain — true of every state
the public API can produce. -/
def Consistent (s : ListState α) : Prop := s.listSize = s.elems.length

/-- The sortedness flag is no over-approximation: if it is set, the
chain really is non-decreasing. -/
def SortedFlagOk (s : ListState α) : Prop :=
  s.isSorted = true → s.elems.Pairwise (· ≤ ·)

/-- Well-formed state: consistent size and honest flag. -/
def WF (s : ListState α) : Prop := Consistent s ∧ SortedFlagOk s

/-- States reachable from a fresh list by `pushFront`, `pushBack`,
`popFront` and `popBack`, the pops applied only to non-empty lists
(C2's operation set; the pop hypotheses say the call did not throw). -/
inductive ReachPP : ListState Int → Prop where
  | init : ReachPP initList
  | pF (s : ListState Int) (v : Int) : ReachPP s → ReachPP (pushFront s v)
  | pB (s : ListState Int) (v : Int) : ReachPP s → ReachPP (pushBack s v)
  | popF (s t : ListState Int) : ReachPP s → popFront s = .ok t → ReachPP t
  | popB (s t : ListState Int) : ReachPP s → popBack s = .ok t → ReachPP t

/-- States reachable through the modelled public operations.  The flag
`mut` selects whether the element-mutating traversal
`forEach(std::function<void(T&)>)` is included: `Reach false` covers the
structural operations only, `Reach true` the full public surface. -/
inductive Reach : Bool → ListState Int → Prop where
  | init (m : Bool) : Reach m initList
  | pF (m : Bool) (s : ListState Int) (v : Int) : Reach m s → Reach m (pushFront s v)
  | pB (m : Bool) (s : ListState Int) (v : Int) : Reach m s → Reach m (pushBack s v)
  | popF (m : Bool) (s t : ListState Int) : Reach m s → popFront s = .ok t → Reach m t
  | popB (m : Bool) (s t : ListState Int) : Reach m s → popBack s = .ok t → Reach m t
  | ins (m : Bool) (s t : ListState Int) (i : Nat) (v : Int) :
      Reach m s → insertAt s i v = .ok t → Reach m t
  | rem (m : Bool) (s t : ListState Int) (i : Nat) :
      Reach m s → removeAt s i = .ok t → Reach m t
  | insS (m : Bool) (s : ListState Int) (v : Int) : Reach m s → Reach m (insertSorted s v)
  | srt (m : Bool) (s : ListState Int) : Reach m s → Reach m (sort s)
  | srtW (m : Bool) (s : ListState Int) (comp : Int → Int → Bool) :
      Reach m s → Reach m (sortWith comp s)
  | rev (m : Bool) (s : ListState Int) : Reach m s → Reach m (reverse s)
  | clr (m : Bool) (s : ListState Int) : Reach m s → Reach m (clear s)
  | mrgL (m : Bool) (s t : ListState Int) :
      Reach m s → Reach m t → Reach m (mergeLists s t).1
  | mrgR (m : Bool) (s t : ListState Int) :
      Reach m s → Reach m t → Reach m (mergeLists s t).2
  | fe (s : ListState Int) (f : Int → Int) : Reach true s → Reach true (forEach f s)

/-- Key-only comparison on (key, position) pairs: the boolean `<=` the
chain merge applies when elements compare by key alone.  Statement
vocabulary for the stability property; not a source function. -/
def keyLe (a b : Int × Nat) : Bool := decide (a.1 ≤ b.1)

/-- Key-then-position strict order on (key, position) pairs: the order a
stable, left-biased sort produces from a position-increasing input.
Statement vocabulary for the stability property; not a source function. -/
def keyIdxLex (a b : Int × Nat) : Prop := a.1 < b.1 ∨ (a.1 = b.1 ∧ a.2 < b.2)

instance : DecidableRel keyIdxLex := fun a b =>
  inferInstanceAs (Decidable (a.1 < b.1 ∨ (a.1 = b.1 ∧ a.2 < b.2)))

/-- C3 (code bug): on the well-formed two-element list `[1, 2]`, one
`reverse()` yields the correct forward sequence `[2, 1]` but leaves
`tailNode` equal to `headNode` — the `std::swap` at line 1496 exchanges
the freshly computed new head with the never-updated `tailNode` — and a
second `reverse()` therefore relocates `headNode` to the chain's last
node: the forward traversal from `headNode` is just `[2]` while
`listSize` is still 2, so `operator==` with the original returns false.
The claim (and the spec's round-trip property) requires it to return
true: the code, not the claim, is at fault. -/
theorem reverse_reverse_tail_bug :
    traverseFrom rawTwo.nodes rawTwo.nodes.length rawTwo.headNode = [1, 2]
    ∧ traverseFrom (reverseRaw rawTwo).nodes (reverseRaw rawTwo).nodes.length
        (reverseRaw rawTwo).headNode = [2, 1]
    ∧ (reverseRaw rawTwo).tailNode = (reverseRaw rawTwo).headNode
    ∧ traverseFrom (reverseRaw (reverseRaw rawTwo)).nodes
        (reverseRaw (reverseRaw rawTwo)).nodes.length
        (reverseRaw (reverseRaw rawTwo)).headNode = [2]
    ∧ (reverseRaw (reverseRaw rawTwo)).listSize = 2
    ∧ rawEq (reverseRaw (reverseRaw rawTwo)) rawTwo = false := by
  decide

/-- C9 counterexample: on the one-element list obtained by
`pushBack(7)` (whose flag is `true`), `reverse()` does not clear the
sorted flag: `reverse()` returns before touching `isSorted` whenever
`listSize <= 1` (line 1478), contradicting the claim that the flag is
cleared unconditionally regardless of size. -/
theorem reverse_singleton_keeps_flag :
    ¬ ((reverse (pushBack (initList (α := Int)) 7)).isSorted = false) := by
  decide

/-- C9 amended: `reverse()` clears the sorted flag whenever the list has
more than one element; for lists of size at most one it returns
immediately, leaving the whole state (flag included) unchanged. -/
theorem reverse_flag_amended (s : ListState Int) :
    (1 < s.listSize → (reverse s).isSorted = false)
    ∧ (s.listSize ≤ 1 → reverse s = s) := by
  constructor
  · intro h
    simp only [reverse]
    rw [if_neg (by omega)]
  · intro h
    simp [reverse, h]

/-- C9 amended, witness at a concrete two-element unsorted list. -/
theorem reverse_flag_amended_witness :
    (reverse (⟨[3, 1], 2, false⟩ : ListState Int)).isSorted = false :=
  (reverse_flag_amended ⟨[3, 1], 2, false⟩).1 (by decide)

theorem clearLoop_eq (s : ListState Int) (h : s.listSize = s.elems.length) :
    clearLoop s = ⟨[], 0, s.isSorted⟩ := by
  induction s using clearLoop.induct with
  | case1 s hz =>
    rw [clearLoop, if_pos hz]
    cases s with
    | mk e n f =>
      simp at hz h ⊢
      exact ⟨(List.length_eq_zero.mp (hz ▸ h.symm)).symm ▸ rfl, hz⟩
  | case2 s hz ih =>
    rw [clearLoop, if_neg hz]
    have hflag : (popFrontGo s).isSorted = s.isSorted := by
      unfold popFrontGo; split <;> rfl
    rw [← hflag]
    apply ih
    unfold popFrontGo
    split
    · simp
      omega
    · simp [List.length_tail]
      omega

/-- C10: after `clear()` the list is empty (size 0, null head and tail —
i.e. an empty chain) and the sorted flag is reset to `true`, even when it
was `false` before. -/
theorem clear_spec (s : ListState Int) (h : s.listSize = s.elems.length) :
    (clear s).elems = [] ∧ (clear s).listSize = 0 ∧ (clear s).isSorted = true := by
  simp [clear, clearLoop_eq s h]

theorem mergeBy_perm {β : Type} (le : β → β → Bool) (l r : List β) :
    (mergeBy le l r).Perm (l ++ r) := by
  induction l, r using mergeBy.induct le with
  | case1 r => simp [mergeBy]
  | case2 l h => simp [mergeBy]
  | case3 a l b r hle ih =>
    rw [mergeBy, if_pos hle]
    exact ih.cons a
  | case4 a l b r hle ih =>
    rw [mergeBy, if_neg hle]
    exact (ih.cons b).trans List.perm_middle.symm

theorem mergeBy_mem {β : Type} (le : β → β → Bool) (l r : List β) (x : β) :
    x ∈ mergeBy le l r ↔ x ∈ l ∨ x ∈ r := by
  rw [(mergeBy_perm le l r).mem_iff, List.mem_append]

theorem mergeBy_pairwise {β : Type} {le : β → β → Bool}
    (total : ∀ a b, le a b = true ∨ le b a = true)
    (htrans : ∀ a b c, le a b = true → le b c = true → le a c = true)
    (l r : List β) (hl : l.Pairwise (fun a b => le a b = true))
    (hr : r.Pairwise (fun a b => le a b = true)) :
    (mergeBy le l r).Pairwise (fun a b => le a b = true) := by
  induction l, r using mergeBy.induct le with
  | case1 r => simpa [mergeBy] using hr
  | case2 l h => simpa [mergeBy] using hl
  | case3 a l b r hle ih =>
    rw [mergeBy, if_pos hle]
    rw [List.pairwise_cons] at hl
    refine List.pairwise_cons.mpr ⟨?_, ih hl.2 hr⟩
    intro x hx
    rcases (mergeBy_mem le l (b :: r) x).mp hx with hxl | hxbr
    · exact hl.1 x hxl
    · rcases List.mem_cons.mp hxbr with rfl | hxr
      · exact hle
      · exact htrans a b x hle ((List.pairwise_cons.mp hr).1 x hxr)
  | case4 a l b r hle ih =>
    rw [mergeBy, if_neg hle]
    have hba : le b a = true := by
      rcases total a b with h | h
      · exact absurd h hle
      · exact h
    rw [List.pairwise_cons] at hr
    refine List.pairwise_cons.mpr ⟨?_, ih hl hr.2⟩
    intro x hx
    rcases (mergeBy_mem le (a :: l) r x).mp hx with hxal | hxr
    · rcases List.mem_cons.mp hxal with rfl | hxl
      · exact hba
      · exact htrans b a x hba ((List.pairwise_cons.mp hl).1 x hxl)
    · exact hr.1 x hxr

theorem mergeSortBy_perm {β : Type} (le : β → β → Bool) (l : List β) :
    (mergeSortBy le l).Perm l := by
  induction l using mergeSortBy.induct le with
  | case1 l h => rw [mergeSortBy, dif_pos h]
  | case2 l h ih1 ih2 =>
    rw [mergeSortBy, dif_neg h]
    have h3 : (l.take (l.length / 2) ++ l.drop (l.length / 2)).Perm l := by
      rw [List.take_append_drop]
    exact (mergeBy_perm le _ _).trans ((ih1.append ih2).trans h3)

theorem mergeSortBy_pairwise {β : Type} {le : β → β → Bool}
    (total : ∀ a b, le a b = true ∨ le b a = true)
    (htrans : ∀ a b c, le a b = true → le b c = true → le a c = true)
    (l : List β) :
    (mergeSortBy le l).Pairwise (fun a b => le a b = true) := by
  induction l using mergeSortBy.induct le with
  | case1 l h =>
    rw [mergeSortBy, dif_pos h]
    match l, h with
    | [], _ => exact List.Pairwise.nil
    | [a], _ => simp
  | case2 l h ih1 ih2 =>
    rw [mergeSortBy, dif_neg h]
    exact mergeBy_pairwise total htrans _ _ ih1 ih2

theorem isSortedChain_iff (l : List α) :
    isSortedChain l = true ↔ l.Chain' (· ≤ ·) := by
  induction l with
  | nil => simp [isSortedChain]
  | cons a t ih =>
    cases t with
    | nil => simp [isSortedChain]
    | cons b t2 =>
      rw [List.chain'_cons, ← ih]
      show (if b < a then false else isSortedChain (b :: t2)) = true
        ↔ a ≤ b ∧ isSortedChain (b :: t2) = true
      by_cases hba : b < a
      · rw [if_pos hba]
        simp [not_le.mpr hba]
      · rw [if_neg hba, not_lt] at *
        simp [hba]

/-- C1: `sort()` leaves a permutation of the original sequence on which
`isSortedCheck()` returns true, with the `sorted` flag set to true; and
the underlying chain merge sort is stable and left-biased: fed a
key/position sequence with strictly increasing positions and compared by
key alone (the `left->data <= right->data` test), it produces the
key-then-position lexicographic order, i.e. equal keys keep their
original relative order because ties prefer the left chain. -/
theorem sort_spec :
    (∀ s : ListState Int,
      ((sort s).elems).Perm s.elems
      ∧ isSortedCheck (sort s) = true
      ∧ (sort s).isSorted = true)
    ∧ (∀ l : List (Int × Nat), l.Pairwise (fun a b => a.2 < b.2) →
        (mergeSortBy keyLe l).Pairwise keyIdxLex) := by
  constructor
  · intro s
    by_cases h : s.listSize ≤ 1
    · refine ⟨?_, ?_, ?_⟩ <;> simp [sort, h, isSortedCheck]
    · have htotal : ∀ a b : Int, (decide (a ≤ b)) = true ∨ (decide (b ≤ a)) = true := by
        intro a b
        simpa using le_total a b
      have htrans : ∀ a b c : Int, (decide (a ≤ b)) = true → (decide (b ≤ c)) = true →
          (decide (a ≤ c)) = true := by
        intro a b c hab hbc
        simp at *
        exact le_trans hab hbc
      refine ⟨?_, ?_, ?_⟩
      · simpa [sort, h, mergeSort] using mergeSortBy_perm _ s.elems
      · have hp := mergeSortBy_pairwise htotal htrans s.elems
        have hp2 : (mergeSortBy (fun a b : Int => decide (a ≤ b)) s.elems).Pairwise (· ≤ ·) :=
          hp.imp (by intro a b hab; simpa using hab)
        simp only [sort, if_neg h, isSortedCheck, mergeSort]
        exact (isSortedChain_iff _).mpr (List.chain'_iff_pairwise.mpr hp2)
      · simp [sort, h]
  · intro l hidx
    have key : ∀ m : List (Int × Nat), m.Pairwise (fun a b => a.2 < b.2) →
        (mergeSortBy keyLe m).Pairwise keyIdxLex := by
      intro m
      induction m using mergeSortBy.induct keyLe with
      | case1 m h =>
        intro hm
        rw [mergeSortBy, dif_pos h]
        match m, h with
        | [], _ => exact List.Pairwise.nil
        | [a], _ => simp
      | case2 m h ih1 ih2 =>
        intro hm
        rw [mergeSortBy, dif_neg h]
        have hsplit := (List.take_append_drop (m.length / 2) m).symm ▸ hm
        rw [List.pairwise_append] at hsplit
        have cross : ∀ a ∈ mergeSortBy keyLe (m.take (m.length / 2)),
            ∀ b ∈ mergeSortBy keyLe (m.drop (m.length / 2)), a.2 < b.2 := by
          intro a ha b hb
          exact hsplit.2.2 a ((mergeSortBy_perm keyLe _).mem_iff.mp ha)
            b ((mergeSortBy_perm keyLe _).mem_iff.mp hb)
        have h1 := ih1 hsplit.1
        have h2 := ih2 hsplit.2.1
        clear ih1 ih2 hm hsplit
        generalize mergeSortBy keyLe (m.take (m.length / 2)) = L at h1 cross
        generalize mergeSortBy keyLe (m.drop (m.length / 2)) = R at h2 cross
        clear h
        induction L, R using mergeBy.induct keyLe with
        | case1 r => simpa [mergeBy] using h2
        | case2 l hne => simpa [mergeBy] using h1
        | case3 a l b r hle ih =>
          rw [mergeBy, if_pos hle]
          rw [List.pairwise_cons] at h1
          refine List.pairwise_cons.mpr ⟨?_, ih h1.2 h2 ?_⟩
          · intro x hx
            have hab : a.1 ≤ b.1 := by simpa [keyLe] using hle
            rcases (mergeBy_mem keyLe l (b :: r) x).mp hx with hxl | hxbr
            · exact h1.1 x hxl
            · have hidx : a.2 < x.2 := cross a (List.mem_cons_self a l) x hxbr
              have hax : a.1 ≤ x.1 := by
                rcases List.mem_cons.mp hxbr with rfl | hxr
                · exact hab
                · rcases (List.pairwise_cons.mp h2).1 x hxr with hlt | ⟨heq, _⟩
                  · exact le_trans hab (le_of_lt hlt)
                  · exact le_trans hab (le_of_eq heq)
              rcases lt_or_eq_of_le hax with hlt | heq
              · exact Or.inl hlt
              · exact Or.inr ⟨heq, hidx⟩
          · intro x hx y hy
            exact cross x (List.mem_cons_of_mem a hx) y hy
        | case4 a l b r hle ih =>
          rw [mergeBy, if_neg hle]
          have hba : b.1 < a.1 := by simpa [keyLe] using hle
          rw [List.pairwise_cons] at h2
          refine List.pairwise_cons.mpr ⟨?_, ih h1 h2.2 ?_⟩
          · intro x hx
            rcases (mergeBy_mem keyLe (a :: l) r x).mp hx with hxal | hxr
            · rcases List.mem_cons.mp hxal with rfl | hxl
              · exact Or.inl hba
              · have hax : a.1 ≤ x.1 := by
                  rcases (List.pairwise_cons.mp h1).1 x hxl with hlt | ⟨heq, _⟩
                  · exact le_of_lt hlt
                  · exact le_of_eq heq
                exact Or.inl (lt_of_lt_of_le hba hax)
            · exact h2.1 x hxr
          · intro x hx y hy
            exact cross x hx y (List.mem_cons_of_mem b hy)
    exact key l hidx

/-- C1 witness: the stability half of `sort_spec` applied to the
position-tagged sequence `[(3,0), (1,1), (3,2)]`. -/
theorem sort_spec_witness :
    (mergeSortBy keyLe [((3 : Int), 0), ((1 : Int), 1), ((3 : Int), 2)]).Pairwise keyIdxLex :=
  sort_spec.2 [((3 : Int), 0), ((1 : Int), 1), ((3 : Int), 2)] (by decide)

/-- C10 witness: clearing a concrete unsorted three-element list. -/
theorem clear_spec_witness :
    (clear (⟨[5, 1, 4], 3, false⟩ : ListState Int)).elems = []
    ∧ (clear (⟨[5, 1, 4], 3, false⟩ : ListState Int)).listSize = 0
    ∧ (clear (⟨[5, 1, 4], 3, false⟩ : ListState Int)).isSorted = true :=
  clear_spec ⟨[5, 1, 4], 3, false⟩ (by decide)

theorem le_getLast?_of_pairwise (l : List α) (hl : l.Pairwise (· ≤ ·)) (tl : α)
    (hlast : l.getLast? = some tl) : ∀ a ∈ l, a ≤ tl := by
  induction l with
  | nil => simp at hlast
  | cons b t ih =>
    intro a ha
    cases t with
    | nil =>
      simp at hlast ha
      rw [ha, hlast]
    | cons c t2 =>
      have hlast2 : (c :: t2).getLast? = some tl := by
        rwa [List.getLast?_cons_cons] at hlast
      rcases List.mem_cons.mp ha with rfl | hat
      · have htl : tl ∈ c :: t2 := by
          rcases List.mem_getLast?_eq_getLast hlast2 with ⟨hne, heq⟩
          exact heq ▸ List.getLast_mem hne
        exact (List.pairwise_cons.mp hl).1 tl htl
      · exact ih hl.tail hlast2 a hat

theorem initList_wf : WF (initList (α := α)) :=
  ⟨rfl, fun _ => List.Pairwise.nil⟩

theorem pushFront_wf (s : ListState α) (v : α) (h : WF s) : WF (pushFront s v) := by
  obtain ⟨hc, hf⟩ := h
  unfold pushFront
  by_cases h0 : s.listSize = 0
  · rw [if_pos h0]
    exact ⟨by simp [Consistent, h0], fun _ => List.pairwise_singleton _ v⟩
  · rw [if_neg h0]
    rcases hel : s.elems with _ | ⟨hd, t⟩
    · exact absurd (hc.trans (by simp [hel])) h0
    · have hcons : s.elems.length = t.length + 1 := by simp [hel]
      constructor
      · simp only [Consistent] at hc ⊢
        simp [hc, hcons]

      · intro hflag
        simp only at hflag
        split at hflag
        · simp at hflag
        · rename_i hcond
          have hsf : s.isSorted = true := hflag
          have hvh : v ≤ hd := by
            rcases not_and_or.mp hcond with hns | hnl
            · exact absurd hsf (by simpa using hns)
            · exact not_lt.mp hnl
          have hold : (hd :: t).Pairwise (· ≤ ·) := hel ▸ hf hsf
          refine List.pairwise_cons.mpr ⟨?_, hold⟩
          intro x hx
          rcases List.mem_cons.mp hx with rfl | hxt
          · exact hvh
          · exact le_trans hvh ((List.pairwise_cons.mp hold).1 x hxt)

theorem pushBack_wf (s : ListState α) (v : α) (h : WF s) : WF (pushBack s v) := by
  obtain ⟨hc, hf⟩ := h
  unfold pushBack
  by_cases h0 : s.listSize = 0
  · rw [if_pos h0]
    exact ⟨by simp [Consistent, h0], fun _ => List.pairwise_singleton _ v⟩
  · rw [if_neg h0]
    rcases hlast : s.elems.getLast? with _ | tl
    · have : s.elems = [] := by
        rwa [List.getLast?_eq_none_iff] at hlast
      exact absurd (hc.trans (by simp [this])) h0
    · constructor
      · simp only [Consistent] at hc ⊢
        simp [hc]
      · intro hflag
        simp only at hflag
        split at hflag
        · simp at hflag
        · rename_i hcond
          have hsf : s.isSorted = true := hflag
          have htv : tl ≤ v := by
            rcases not_and_or.mp hcond with hns | hnl
            · exact absurd hsf (by simpa using hns)
            · exact not_lt.mp hnl
          have hold : s.elems.Pairwise (· ≤ ·) := hf hsf
          rw [List.pairwise_append]
          refine ⟨hold, List.pairwise_singleton _ v, ?_⟩
          intro a ha b hb
          rcases List.mem_singleton.mp hb with rfl
          exact le_trans (le_getLast?_of_pairwise s.elems hold tl hlast a ha) htv

theorem popFrontGo_wf (s : ListState α) (h : WF s) : WF (popFrontGo s) := by
  obtain ⟨hc, hf⟩ := h
  unfold popFrontGo
  split
  · rename_i h1
    exact ⟨by simp [Consistent, h1], fun _ => List.Pairwise.nil⟩
  · constructor
    · simp only [Consistent] at hc ⊢
      simp [List.length_tail, hc]
    · intro hflag
      have hold := hf hflag
      cases hel : s.elems with
      | nil => simp [hel]
      | cons a t => simpa [hel] using (hel ▸ hold).tail

theorem popBackGo_wf (s : ListState α) (h : WF s) : WF (popBackGo s) := by
  obtain ⟨hc, hf⟩ := h
  unfold popBackGo
  split
  · rename_i h1
    exact ⟨by simp [Consistent, h1], fun _ => List.Pairwise.nil⟩
  · constructor
    · simp only [Consistent] at hc ⊢
      simp [List.length_dropLast, hc]
    · intro hflag
      exact (hf hflag).sublist (List.dropLast_sublist s.elems)

theorem popFront_wf (s t : ListState α) (h : WF s) (heq : popFront s = .ok t) : WF t := by
  unfold popFront at heq
  split at heq
  · cases heq
  · cases heq
    exact popFrontGo_wf s h

theorem popBack_wf (s t : ListState α) (h : WF s) (heq : popBack s = .ok t) : WF t := by
  unfold popBack at heq
  split at heq
  · cases heq
  · cases heq
    exact popBackGo_wf s h

theorem insertAt_wf (s t : ListState α) (i : Nat) (v : α) (h : WF s)
    (heq : insertAt s i v = .ok t) : WF t := by
  obtain ⟨hc, hf⟩ := h
  unfold insertAt at heq
  split at heq
  · cases heq
  · split at heq
    · cases heq
      exact pushFront_wf s v ⟨hc, hf⟩
    · split at heq
      · cases heq
        exact pushBack_wf s v ⟨hc, hf⟩
      · cases heq
        rename_i hgt h0 hsz
        have hi : i < s.elems.length := by
          simp only [Consistent] at hc
          omega
        constructor
        · simp only [Consistent] at hc ⊢
          simp [List.length_take, List.length_drop]
          omega
        · intro hflag
          simp at hflag

theorem removeAt_wf (s t : ListState α) (i : Nat) (h : WF s)
    (heq : removeAt s i = .ok t) : WF t := by
  obtain ⟨hc, hf⟩ := h
  unfold removeAt at heq
  split at heq
  · cases heq
  · split at heq
    · cases heq
      exact popFrontGo_wf s ⟨hc, hf⟩
    · split at heq
      · cases heq
        exact popBackGo_wf s ⟨hc, hf⟩
      · cases heq
        rename_i hge h0 hlastidx
        have hi : i < s.elems.length := by
          simp only [Consistent] at hc
          omega
        have herase : s.elems.take i ++ s.elems.drop (i + 1) = s.elems.eraseIdx i :=
          (List.eraseIdx_eq_take_drop_succ s.elems i).symm
        constructor
        · simp only [Consistent] at hc ⊢
          simp only [herase]
          rw [List.length_eraseIdx]
          simp [hi]
          omega
        · intro hflag
          simp only [herase]
          exact (hf hflag).sublist (List.eraseIdx_sublist s.elems i)

theorem length_le_one_pairwise (l : List α) (h : l.length ≤ 1) :
    l.Pairwise (· ≤ ·) := by
  rcases l with _ | ⟨a, _ | ⟨b, t⟩⟩
  · exact List.Pairwise.nil
  · exact List.pairwise_singleton _ a
  · simp at h

theorem sort_wf (s : ListState α) (h : WF s) :
    WF (sort s) ∧ (sort s).isSorted = true ∧ (sort s).elems.Perm s.elems := by
  obtain ⟨hc, hf⟩ := h
  simp only [Consistent] at hc
  by_cases hle : s.listSize ≤ 1
  · have hp : s.elems.Pairwise (· ≤ ·) :=
      length_le_one_pairwise s.elems (by omega)
    have hsort : sort s = { elems := s.elems, listSize := s.listSize, isSorted := true } := by
      simp [sort, hle]
    rw [hsort]
    exact ⟨⟨hc, fun _ => hp⟩, rfl, List.Perm.refl _⟩
  · have htotal : ∀ a b : α, (decide (a ≤ b)) = true ∨ (decide (b ≤ a)) = true := by
      intro a b
      simpa using le_total a b
    have htrans : ∀ a b c : α, (decide (a ≤ b)) = true → (decide (b ≤ c)) = true →
        (decide (a ≤ c)) = true := by
      intro a b c hab hbc
      simp at *
      exact le_trans hab hbc
    have hperm : (mergeSort s.elems).Perm s.elems := mergeSortBy_perm _ s.elems
    have hp : (mergeSort s.elems).Pairwise (· ≤ ·) :=
      (mergeSortBy_pairwise htotal htrans s.elems).imp (by intro a b hab; simpa using hab)
    have hsort : sort s
        = { elems := mergeSort s.elems, listSize := s.listSize, isSorted := true } := by
      simp [sort, hle]
    rw [hsort]
    exact ⟨⟨hc.trans hperm.length_eq.symm, fun _ => hp⟩, rfl, hperm⟩

theorem sortWith_wf (comp : α → α → Bool) (s : ListState α) (h : WF s) :
    WF (sortWith comp s) := by
  obtain ⟨hc, hf⟩ := h
  unfold sortWith
  split
  · exact ⟨hc, by intro hflag; simp at hflag⟩
  · constructor
    · simp only [Consistent] at hc ⊢
      simp [stdSort, (mergeSortBy_perm _ s.elems).length_eq, hc]
    · intro hflag
      simp at hflag

theorem reverse_wf (s : ListState α) (h : WF s) : WF (reverse s) := by
  obtain ⟨hc, hf⟩ := h
  unfold reverse
  split
  · exact ⟨hc, hf⟩
  · exact ⟨by simp only [Consistent] at hc ⊢; simp [hc], by intro hflag; simp at hflag⟩

theorem clear_eq (s : ListState Int) (h : Consistent s) :
    clear s = ⟨[], 0, true⟩ := by
  simp [clear, clearLoop_eq s h]

theorem clear_wf (s : ListState Int) (h : WF s) : WF (clear s) := by
  rw [clear_eq s h.1]
  exact ⟨rfl, fun _ => List.Pairwise.nil⟩

theorem le_dropWhile_of_pairwise (v : α) (l : List α) (hl : l.Pairwise (· ≤ ·)) :
    ∀ x ∈ l.dropWhile (fun y => decide (y < v)), v ≤ x := by
  induction l with
  | nil => simp
  | cons a t ih =>
    intro x hx
    by_cases hp : a < v
    · rw [List.dropWhile_cons, if_pos (by simpa using hp)] at hx
      exact ih hl.tail x hx
    · rw [List.dropWhile_cons, if_neg (by simpa using hp)] at hx
      rcases List.mem_cons.mp hx with rfl | hxt
      · exact not_lt.mp hp
      · exact le_trans (not_lt.mp hp) ((List.pairwise_cons.mp hl).1 x hxt)

theorem splice_pairwise (v : α) (l : List α) (hl : l.Pairwise (· ≤ ·)) :
    (l.takeWhile (fun x => decide (x < v))
      ++ v :: l.dropWhile (fun x => decide (x < v))).Pairwise (· ≤ ·) := by
  rw [List.pairwise_append]
  refine ⟨hl.sublist (List.takeWhile_sublist _), ?_, ?_⟩
  · rw [List.pairwise_cons]
    exact ⟨le_dropWhile_of_pairwise v l hl, hl.sublist (List.dropWhile_sublist _)⟩
  · intro a ha b hb
    have hav : a < v := by simpa using List.mem_takeWhile_imp ha
    rcases List.mem_cons.mp hb with rfl | hbd
    · exact le_of_lt hav
    · exact le_of_lt (lt_of_lt_of_le hav (le_dropWhile_of_pairwise v l hl b hbd))

theorem insertSorted_full (s : ListState α) (v : α) (h : WF s) :
    WF (insertSorted s v)
    ∧ (insertSorted s v).elems.Pairwise (· ≤ ·)
    ∧ (insertSorted s v).elems.Perm (v :: s.elems)
    ∧ (insertSorted s v).isSorted = true := by
  have hs1 : WF (if ¬ s.isSorted then sort s else s)
      ∧ (if ¬ s.isSorted then sort s else s).isSorted = true
      ∧ (if ¬ s.isSorted then sort s else s).elems.Pairwise (· ≤ ·)
      ∧ (if ¬ s.isSorted then sort s else s).elems.Perm s.elems := by
    by_cases hb : s.isSorted
    · rw [if_neg (by simpa using hb)]
      exact ⟨h, hb, h.2 hb, List.Perm.refl _⟩
    · rw [if_pos (by simpa using hb)]
      obtain ⟨hwf, hflag, hperm⟩ := sort_wf s h
      exact ⟨hwf, hflag, hwf.2 hflag, hperm⟩
  unfold insertSorted
  generalize hgen : (if ¬ s.isSorted then sort s else s) = s1 at hs1 ⊢
  obtain ⟨hwf1, hflag1, hpair1, hperm1⟩ := hs1
  by_cases h0 : s1.listSize = 0
  · rw [if_pos h0]
    have hel : s1.elems = [] :=
      List.length_eq_zero.mp (h0 ▸ hwf1.1.symm)
    have hsel : s.elems = [] := (List.Perm.nil_eq (hel ▸ hperm1)).symm
    have hpf : pushFront s1 v = ⟨[v], s1.listSize + 1, s1.isSorted⟩ := by
      unfold pushFront
      rw [if_pos h0]
    rw [hpf]
    refine ⟨⟨by simp [Consistent, h0], fun _ => List.pairwise_singleton _ v⟩,
      List.pairwise_singleton _ v, ?_, hflag1⟩
    rw [hsel]
  · rw [if_neg h0]
    split
    · rename_i hel
      exact absurd (hwf1.1.trans (by simp [hel])) h0
    · rename_i hd t hel
      have hc1 : s1.listSize = t.length + 1 := by
        have := hwf1.1
        simp only [Consistent, hel] at this
        simpa using this
      have hpairHT : (hd :: t).Pairwise (· ≤ ·) := hel ▸ hpair1
      have hpermHT : (hd :: t).Perm s.elems := hel ▸ hperm1
      by_cases hvh : v ≤ hd
      · rw [if_pos hvh]
        have hpf : pushFront s1 v = ⟨v :: hd :: t, s1.listSize + 1, s1.isSorted⟩ := by
          unfold pushFront
          rw [if_neg h0, hel]
          simp [not_lt.mpr hvh]
        have hwfp := pushFront_wf s1 v hwf1
        have hflagp : (pushFront s1 v).isSorted = true := by
          rw [hpf]
          exact hflag1
        refine ⟨hwfp, hwfp.2 hflagp, ?_, hflagp⟩
        rw [hpf]
        exact hpermHT.cons v
      · rw [if_neg hvh]
        have hglast : (hd :: t).getLast? = some ((hd :: t).getLastD hd) := by
          rw [List.getLastD_eq_getLast?,
            List.getLast?_eq_getLast_of_ne_nil (List.cons_ne_nil hd t)]
          rfl
        by_cases htl : (hd :: t).getLastD hd ≤ v
        · rw [if_pos htl]
          have hpb : pushBack s1 v = ⟨(hd :: t) ++ [v], s1.listSize + 1, s1.isSorted⟩ := by
            unfold pushBack
            rw [if_neg h0, hel, hglast]
            simp [not_lt.mpr htl]
            intro _
            exact Or.inr (by rw [← List.getLastD_eq_getLast?]; exact htl)
          have hwfp := pushBack_wf s1 v hwf1
          have hflagp : (pushBack s1 v).isSorted = true := by
            rw [hpb]
            exact hflag1
          refine ⟨hwfp, hwfp.2 hflagp, ?_, hflagp⟩
          rw [hpb]
          exact (List.perm_append_singleton v (hd :: t)).trans (hpermHT.cons v)
        · rw [if_neg htl]
          have hlen : ((hd :: t).takeWhile (fun x => decide (x < v))).length
              + ((hd :: t).dropWhile (fun x => decide (x < v))).length
              = t.length + 1 := by
            rw [← List.length_append, List.takeWhile_append_dropWhile]
            simp
          have hperm2 : ((hd :: t).takeWhile (fun x => decide (x < v))
              ++ v :: (hd :: t).dropWhile (fun x => decide (x < v))).Perm (v :: s.elems) := by
            refine List.perm_middle.trans ?_
            rw [List.takeWhile_append_dropWhile]
            exact hpermHT.cons v
          refine ⟨⟨?_, fun _ => splice_pairwise v (hd :: t) hpairHT⟩,
            splice_pairwise v (hd :: t) hpairHT, hperm2, hflag1⟩
          simp only [Consistent, List.length_append, List.length_cons]
          omega

theorem buildByPushBack_spec (l : List α) :
    (buildByPushBack l).elems = l ∧ (buildByPushBack l).listSize = l.length
    ∧ ((buildByPushBack l).isSorted = true ↔ l.Chain' (· ≤ ·)) := by
  induction l using List.reverseRecOn with
  | nil => exact ⟨rfl, rfl, by simp [buildByPushBack, initList, List.foldl]⟩
  | append_singleton l v ih =>
    obtain ⟨he, hn, hf⟩ := ih
    have hstep : buildByPushBack (l ++ [v]) = pushBack (buildByPushBack l) v := by
      simp [buildByPushBack, List.foldl_append]
    rw [hstep]
    cases l with
    | nil =>
      refine ⟨?_, ?_, ?_⟩ <;> simp [pushBack, buildByPushBack, initList, List.foldl]
    | cons a t =>
      have hne : (buildByPushBack (a :: t)).listSize ≠ 0 := by
        rw [hn]
        simp
      have hg : (a :: t).getLast? = some ((a :: t).getLast (List.cons_ne_nil a t)) :=
        List.getLast?_eq_getLast_of_ne_nil _
      have hpb : pushBack (buildByPushBack (a :: t)) v
          = ⟨(a :: t) ++ [v], (buildByPushBack (a :: t)).listSize + 1,
              if (buildByPushBack (a :: t)).isSorted
                  ∧ v < (a :: t).getLast (List.cons_ne_nil a t) then false
              else (buildByPushBack (a :: t)).isSorted⟩ := by
        unfold pushBack
        rw [if_neg hne, he, hg]
      rw [hpb]
      refine ⟨rfl, by simp [hn], ?_⟩
      have hchain : ((a :: t) ++ [v]).Chain' (· ≤ ·)
          ↔ (a :: t).Chain' (· ≤ ·) ∧ (a :: t).getLast (List.cons_ne_nil a t) ≤ v := by
        rw [List.chain'_append]
        simp [hg]
      rw [hchain]
      by_cases hbs : (buildByPushBack (a :: t)).isSorted = true
      · have hch : (a :: t).Chain' (· ≤ ·) := hf.mp hbs
        by_cases hvg : v < (a :: t).getLast (List.cons_ne_nil a t)
        · rw [if_pos ⟨hbs, hvg⟩]
          simp [hch, not_le.mpr hvg]
        · rw [if_neg (fun hcon => absurd hcon.2 hvg)]
          simp [hbs, hch, not_lt.mp hvg]
      · rw [if_neg (fun hcon => absurd hcon.1 hbs)]
        have hnch : ¬ (a :: t).Chain' (· ≤ ·) := fun hch => hbs (hf.mpr hch)
        constructor
        · intro hfalse
          exact absurd hfalse hbs
        · intro hcon
          exact absurd hcon.1 hnch

theorem sortIf_spec (s : ListState α) (h : WF s) :
    WF (if ¬ s.isSorted then sort s else s)
    ∧ (if ¬ s.isSorted then sort s else s).isSorted = true
    ∧ (if ¬ s.isSorted then sort s else s).elems.Pairwise (· ≤ ·)
    ∧ (if ¬ s.isSorted then sort s else s).elems.Perm s.elems := by
  by_cases hb : s.isSorted
  · rw [if_neg (by simpa using hb)]
    exact ⟨h, hb, h.2 hb, List.Perm.refl _⟩
  · rw [if_pos (by simpa using hb)]
    obtain ⟨hwf, hflag, hperm⟩ := sort_wf s h
    exact ⟨hwf, hflag, hwf.2 hflag, hperm⟩

theorem decideLe_total : ∀ a b : α, (decide (a ≤ b)) = true ∨ (decide (b ≤ a)) = true := by
  intro a b
  simpa using le_total a b

theorem decideLe_trans : ∀ a b c : α, (decide (a ≤ b)) = true → (decide (b ≤ c)) = true →
    (decide (a ≤ c)) = true := by
  intro a b c hab hbc
  simp at *
  exact le_trans hab hbc

theorem mergeLists_full (s t : ListState Int) (hs : WF s) (ht : WF t) :
    WF (mergeLists s t).1 ∧ WF (mergeLists s t).2
    ∧ (mergeLists s t).1.listSize = s.elems.length + t.elems.length
    ∧ (mergeLists s t).1.elems.Perm (s.elems ++ t.elems)
    ∧ isSortedCheck (mergeLists s t).1 = true
    ∧ (mergeLists s t).2 = ⟨[], 0, true⟩ := by
  obtain ⟨hwfs, hflags, hpairs, hperms⟩ := sortIf_spec s hs
  obtain ⟨hwft, hflagt, hpairt, hpermt⟩ := sortIf_spec t ht
  simp only [mergeLists]
  generalize hg1 : (if ¬ s.isSorted then sort s else s) = s1 at *
  generalize hg2 : (if ¬ t.isSorted then sort t else t) = t1 at *
  have hupair : (mergeBy (fun a b : Int => decide (a ≤ b)) s1.elems t1.elems).Pairwise
      (fun a b : Int => decide (a ≤ b) = true) :=
    mergeBy_pairwise decideLe_total decideLe_trans _ _
      (hpairs.imp (by intro a b hab; simpa using hab))
      (hpairt.imp (by intro a b hab; simpa using hab))
  have hupairLe : (mergeBy (fun a b : Int => decide (a ≤ b)) s1.elems t1.elems).Pairwise
      (· ≤ ·) := hupair.imp (by intro a b hab; simpa using hab)
  have huperm : (mergeBy (fun a b : Int => decide (a ≤ b)) s1.elems t1.elems).Perm
      (s1.elems ++ t1.elems) := mergeBy_perm _ _ _
  have hulen : (mergeBy (fun a b : Int => decide (a ≤ b)) s1.elems t1.elems).length
      = s.elems.length + t.elems.length := by
    rw [huperm.length_eq, List.length_append, hperms.length_eq, hpermt.length_eq]
  obtain ⟨hbe, hbn, hbf⟩ := buildByPushBack_spec
    (mergeBy (fun a b : Int => decide (a ≤ b)) s1.elems t1.elems)
  refine ⟨⟨?_, ?_⟩, ?_, ?_, ?_, ?_, ?_⟩
  · simp only [Consistent]
    rw [hbn, hbe]
  · intro hflag
    rw [hbe]
    exact hupairLe
  · rw [clear_eq t1 hwft.1]
    exact ⟨rfl, fun _ => List.Pairwise.nil⟩
  · rw [hbn, hulen]
  · rw [hbe]
    exact huperm.trans (hperms.append hpermt)
  · unfold isSortedCheck
    split
    · rfl
    · rw [hbe]
      exact (isSortedChain_iff _).mpr (List.chain'_iff_pairwise.mpr hupairLe)
  · exact clear_eq t1 hwft.1

/-- C2: after any finite combination of `pushFront`, `pushBack`,
`popFront` and `popBack` starting from the empty list (pops only on
non-empty lists, i.e. the calls that do not throw), `checkIntegrity()`
returns true and the stored `listSize` equals the number of nodes a full
forward traversal from `headNode` visits. -/
theorem pushPop_checkIntegrity (s : ListState Int) (h : ReachPP s) :
    checkIntegrity s = true ∧ s.listSize = s.elems.length := by
  have hwf : WF s := by
    induction h with
    | init => exact initList_wf
    | pF s v hs ih => exact pushFront_wf s v ih
    | pB s v hs ih => exact pushBack_wf s v ih
    | popF s t hs heq ih => exact popFront_wf s t ih heq
    | popB s t hs heq ih => exact popBack_wf s t ih heq
  have hc := hwf.1
  simp only [Consistent] at hc
  refine ⟨?_, hc⟩
  unfold checkIntegrity
  split
  · rename_i h0
    have : s.elems = [] := List.length_eq_zero.mp (by omega)
    simp [this]
  · split
    · rename_i h0 h1
      simp
      omega
    · simp
      omega

/-- C2 witness: a concrete push/push/pop history. -/
theorem pushPop_checkIntegrity_witness :
    checkIntegrity (popFrontGo (pushBack (pushFront (initList (α := Int)) 2) 5)) = true
    ∧ (popFrontGo (pushBack (pushFront (initList (α := Int)) 2) 5)).listSize
      = (popFrontGo (pushBack (pushFront (initList (α := Int)) 2) 5)).elems.length :=
  pushPop_checkIntegrity _
    (ReachPP.popF _ _ (ReachPP.pB _ 5 (ReachPP.pF _ 2 ReachPP.init)) rfl)

theorem reach_structural_wf :
    ∀ (m : Bool) (s : ListState Int), Reach m s → m = false → WF s := by
  intro m s h
  induction h with
  | init m => exact fun _ => initList_wf
  | pF m s v hs ih => exact fun hm => pushFront_wf s v (ih hm)
  | pB m s v hs ih => exact fun hm => pushBack_wf s v (ih hm)
  | popF m s t hs heq ih => exact fun hm => popFront_wf s t (ih hm) heq
  | popB m s t hs heq ih => exact fun hm => popBack_wf s t (ih hm) heq
  | ins m s t i v hs heq ih => exact fun hm => insertAt_wf s t i v (ih hm) heq
  | rem m s t i hs heq ih => exact fun hm => removeAt_wf s t i (ih hm) heq
  | insS m s v hs ih => exact fun hm => (insertSorted_full s v (ih hm)).1
  | srt m s hs ih => exact fun hm => (sort_wf s (ih hm)).1
  | srtW m s comp hs ih => exact fun hm => sortWith_wf comp s (ih hm)
  | rev m s hs ih => exact fun hm => reverse_wf s (ih hm)
  | clr m s hs ih => exact fun hm => clear_wf s (ih hm)
  | mrgL m s t hs ht ihs iht => exact fun hm => (mergeLists_full s t (ihs hm) (iht hm)).1
  | mrgR m s t hs ht ihs iht => exact fun hm => (mergeLists_full s t (ihs hm) (iht hm)).2.1
  | fe s f hs ih => exact fun hm => absurd hm (by simp)

/-- C4 counterexample: the state reached by `pushBack(1); pushBack(2);
forEach(negate)` — all public operations — has `sorted() == true` while
its forward sequence `[-1, -2]` is decreasing: `forEach` with a mutating
function (lines 1573-1580) rewrites elements without touching the flag,
so the flag can over-approximate. -/
theorem sortedFlag_overapprox_cex :
    Reach true (⟨[-1, -2], 2, true⟩ : ListState Int)
    ∧ (⟨[-1, -2], 2, true⟩ : ListState Int).isSorted = true
    ∧ ¬ (⟨[-1, -2], 2, true⟩ : ListState Int).elems.Pairwise (· ≤ ·) := by
  refine ⟨?_, rfl, by decide⟩
  have h : (⟨[-1, -2], 2, true⟩ : ListState Int)
      = forEach (fun x => -x) (pushBack (pushBack initList 1) 2) := by
    decide
  rw [h]
  exact Reach.fe _ _ (Reach.pB true _ 2 (Reach.pB true _ 1 (Reach.init true)))

/-- C4 amended: across every modelled public operation that does not
mutate elements in place (`pushFront`, `pushBack`, `popFront`,
`popBack`, `insert`, `removeAt`, `insertSorted`, both `sort` overloads,
`reverse`, `clear`, `merge`), `sorted() == true` implies the forward
sequence is non-decreasing; the element-mutating access paths —
`forEach` with a mutating function, and likewise the non-const
references returned by `at`/`operator[]`/`front`/`back` — are excluded,
since they can falsify the flag's promise. -/
theorem sortedFlag_never_overapprox (s : ListState Int) (h : Reach false s) :
    s.isSorted = true → s.elems.Pairwise (· ≤ ·) :=
  (reach_structural_wf false s h rfl).2

/-- C4 amended, witness: a freshly pushed singleton. -/
theorem sortedFlag_never_overapprox_witness :
    (pushBack (initList (α := Int)) 3).elems.Pairwise (· ≤ ·) :=
  sortedFlag_never_overapprox _ (Reach.pB false _ 3 (Reach.init false)) rfl

/-- C6: `this.merge(other)` under the default ordering leaves `this`
with `listSize` the sum of the two input sizes, its element multiset the
union of the two input multisets, a sequence `isSortedCheck()` confirms
non-decreasing, and leaves `other` empty (size 0, flag reset).  The
hypotheses say the two lists are honest states of the structure: size
matches the chain and the sortedness flag is no over-approximation. -/
theorem merge_spec (s t : ListState Int)
    (hcs : s.listSize = s.elems.length) (hct : t.listSize = t.elems.length)
    (hfs : s.isSorted = true → s.elems.Pairwise (· ≤ ·))
    (hft : t.isSorted = true → t.elems.Pairwise (· ≤ ·)) :
    (mergeLists s t).1.listSize = s.listSize + t.listSize
    ∧ (mergeLists s t).1.elems.Perm (s.elems ++ t.elems)
    ∧ isSortedCheck (mergeLists s t).1 = true
    ∧ (mergeLists s t).2 = ⟨[], 0, true⟩ := by
  obtain ⟨_, _, hlen, hperm, hchk, hsnd⟩ := mergeLists_full s t ⟨hcs, hfs⟩ ⟨hct, hft⟩
  exact ⟨by rw [hlen, hcs, hct], hperm, hchk, hsnd⟩

/-- C6 witness: merging `[1,3]` with the unsorted `[2,1]`. -/
theorem merge_spec_witness :
    (mergeLists (⟨[1, 3], 2, true⟩ : ListState Int) ⟨[2, 1], 2, false⟩).1.listSize = 2 + 2
    ∧ (mergeLists (⟨[1, 3], 2, true⟩ : ListState Int) ⟨[2, 1], 2, false⟩).1.elems.Perm
        ([1, 3] ++ [2, 1])
    ∧ isSortedCheck (mergeLists (⟨[1, 3], 2, true⟩ : ListState Int) ⟨[2, 1], 2, false⟩).1 = true
    ∧ (mergeLists (⟨[1, 3], 2, true⟩ : ListState Int) ⟨[2, 1], 2, false⟩).2 = ⟨[], 0, true⟩ :=
  merge_spec ⟨[1, 3], 2, true⟩ ⟨[2, 1], 2, false⟩ rfl rfl (fun _ => by decide) (by decide)

/-- C7: `insertSorted(v)` (sorting first when the flag is down) yields a
non-decreasing sequence whose multiset is the old multiset plus `v` and
leaves `sorted() == true`; concretely, `insertSorted(5)` on the sorted
list `[2,4,6]` yields `[2,4,5,6]` with the flag still true.  The
hypotheses say the input is an honest state of the structure. -/
theorem insertSorted_spec (s : ListState Int) (v : Int)
    (hc : s.listSize = s.elems.length)
    (hf : s.isSorted = true → s.elems.Pairwise (· ≤ ·)) :
    (insertSorted s v).elems.Pairwise (· ≤ ·)
    ∧ (insertSorted s v).elems.Perm (v :: s.elems)
    ∧ (insertSorted s v).isSorted = true
    ∧ insertSorted (⟨[2, 4, 6], 3, true⟩ : ListState Int) 5 = ⟨[2, 4, 5, 6], 4, true⟩ := by
  obtain ⟨_, hp, hperm, hflag⟩ := insertSorted_full s v ⟨hc, hf⟩
  exact ⟨hp, hperm, hflag, by decide⟩

/-- C7 witness: inserting 2 into the unsorted list `[3,1]`. -/
theorem insertSorted_spec_witness :
    (insertSorted (⟨[3, 1], 2, false⟩ : ListState Int) 2).isSorted = true :=
  (insertSorted_spec ⟨[3, 1], 2, false⟩ 2 rfl (by decide)).2.2.1

theorem pairwise_le_getD (l : List α) (hp : l.Pairwise (· ≤ ·)) (d : α) (i j : Nat)
    (hij : i ≤ j) (hj : j < l.length) : l.getD i d ≤ l.getD j d := by
  rcases eq_or_lt_of_le hij with rfl | hlt
  · exact le_refl _
  · have hi : i < l.length := lt_trans hlt hj
    have hrel := List.pairwise_iff_get.mp hp ⟨i, hi⟩ ⟨j, hj⟩ hlt
    rw [List.getD_eq_getElem l d hi, List.getD_eq_getElem l d hj]
    simpa [List.get_eq_getElem] using hrel

theorem bsLoop_some_eq (l : List α) (v : α) :
    ∀ left right, right < l.length → ∀ m, bsLoop l v left right = some m →
      m < l.length ∧ l.getD m v = v := by
  intro left right
  induction left, right using bsLoop.induct l v with
  | case1 left right hlr mid midValue hv =>
    intro hr m hm
    have hv2 : l.getD (left + (right - left) / 2) v = v := hv
    rw [bsLoop, if_pos hlr, if_pos hv2] at hm
    cases hm
    exact ⟨by omega, hv2⟩
  | case2 left right hlr mid midValue hne hlt ih =>
    intro hr m hm
    have hne2 : ¬ l.getD (left + (right - left) / 2) v = v := hne
    have hlt2 : l.getD (left + (right - left) / 2) v < v := hlt
    rw [bsLoop, if_pos hlr, if_neg hne2, if_pos hlt2] at hm
    exact ih hr m hm
  | case3 left right hlr mid midValue hne hnlt h0 =>
    intro hr m hm
    have hne2 : ¬ l.getD (left + (right - left) / 2) v = v := hne
    have hnlt2 : ¬ l.getD (left + (right - left) / 2) v < v := hnlt
    have h02 : left + (right - left) / 2 = 0 := h0
    rw [bsLoop, if_pos hlr, if_neg hne2, if_neg hnlt2, if_pos h02] at hm
    cases hm
  | case4 left right hlr mid midValue hne hnlt h0 ih =>
    intro hr m hm
    have hne2 : ¬ l.getD (left + (right - left) / 2) v = v := hne
    have hnlt2 : ¬ l.getD (left + (right - left) / 2) v < v := hnlt
    have h02 : ¬ left + (right - left) / 2 = 0 := h0
    rw [bsLoop, if_pos hlr, if_neg hne2, if_neg hnlt2, if_neg h02] at hm
    exact ih (by omega) m hm
  | case5 left right hlr =>
    intro hr m hm
    rw [bsLoop, if_neg hlr] at hm
    cases hm

theorem bsLoop_none_notMem (l : List α) (v : α) (hp : l.Pairwise (· ≤ ·)) :
    ∀ left right, right < l.length → bsLoop l v left right = none →
      ∀ i, left ≤ i → i ≤ right → l.getD i v ≠ v := by
  intro left right
  induction left, right using bsLoop.induct l v with
  | case1 left right hlr mid midValue hv =>
    intro hr hm
    have hv2 : l.getD (left + (right - left) / 2) v = v := hv
    rw [bsLoop, if_pos hlr, if_pos hv2] at hm
    cases hm
  | case2 left right hlr mid midValue hne hlt ih =>
    intro hr hm i h1 h2
    have hne2 : ¬ l.getD (left + (right - left) / 2) v = v := hne
    have hlt2 : l.getD (left + (right - left) / 2) v < v := hlt
    rw [bsLoop, if_pos hlr, if_neg hne2, if_pos hlt2] at hm
    by_cases hcase : left + (right - left) / 2 + 1 ≤ i
    · exact ih hr hm i hcase h2
    · intro hiv
      have hle : l.getD i v ≤ l.getD (left + (right - left) / 2) v :=
        pairwise_le_getD l hp v i (left + (right - left) / 2) (by omega) (by omega)
      rw [hiv] at hle
      exact absurd (lt_of_le_of_lt hle hlt2) (lt_irrefl v)
  | case3 left right hlr mid midValue hne hnlt h0 =>
    intro hr hm i h1 h2
    have hne2 : ¬ l.getD (left + (right - left) / 2) v = v := hne
    have hnlt2 : ¬ l.getD (left + (right - left) / 2) v < v := hnlt
    have h02 : left + (right - left) / 2 = 0 := h0
    intro hiv
    have hgt : v < l.getD (left + (right - left) / 2) v :=
      lt_of_le_of_ne (not_lt.mp hnlt2) (fun he => hne2 he.symm)
    have hle : l.getD (left + (right - left) / 2) v ≤ l.getD i v :=
      pairwise_le_getD l hp v (left + (right - left) / 2) i (by omega) (by omega)
    rw [hiv] at hle
    exact absurd (lt_of_lt_of_le hgt hle) (lt_irrefl v)
  | case4 left right hlr mid midValue hne hnlt h0 ih =>
    intro hr hm i h1 h2
    have hne2 : ¬ l.getD (left + (right - left) / 2) v = v := hne
    have hnlt2 : ¬ l.getD (left + (right - left) / 2) v < v := hnlt
    have h02 : ¬ left + (right - left) / 2 = 0 := h0
    rw [bsLoop, if_pos hlr, if_neg hne2, if_neg hnlt2, if_neg h02] at hm
    by_cases hcase : i ≤ left + (right - left) / 2 - 1
    · exact ih (by omega) hm i h1 hcase
    · intro hiv
      have hgt : v < l.getD (left + (right - left) / 2) v :=
        lt_of_le_of_ne (not_lt.mp hnlt2) (fun he => hne2 he.symm)
      have hle : l.getD (left + (right - left) / 2) v ≤ l.getD i v :=
        pairwise_le_getD l hp v (left + (right - left) / 2) i (by omega) (by omega)
      rw [hiv] at hle
      exact absurd (lt_of_lt_of_le hgt hle) (lt_irrefl v)
  | case5 left right hlr =>
    intro hr hm i h1 h2
    omega

/-- C5: both binary searches throw the `logic_error` precondition
failure exactly when the sorted flag is false — they trust the flag, so
with the flag up they never throw, even without re-verifying order by a
scan; when the flag is up and the sequence really is non-decreasing (on
a size-consistent state), `binarySearch(v)` returns true iff `v` occurs
in the list; concretely, `binarySearchIndex` on the sorted `[1,3,3,5,9]`
finds 3 at 0-based index 1 or 2, and `binarySearch` on the list built by
pushing 5, 1, 3 (whose flag is down) raises the error. -/
theorem binarySearch_spec :
    (∀ (s : ListState Int) (v : Int),
      (binarySearch s v = .error .logicError ↔ s.isSorted = false)
      ∧ (binarySearchIndex s v = .error .logicError ↔ s.isSorted = false))
    ∧ (∀ (s : ListState Int) (v : Int),
        s.isSorted = true → s.elems.Pairwise (· ≤ ·) → s.listSize = s.elems.length →
        (binarySearch s v = .ok true ↔ v ∈ s.elems))
    ∧ (binarySearchIndex (⟨[1, 3, 3, 5, 9], 5, true⟩ : ListState Int) 3 = .ok 1
        ∨ binarySearchIndex (⟨[1, 3, 3, 5, 9], 5, true⟩ : ListState Int) 3 = .ok 2)
    ∧ binarySearch (pushBack (pushBack (pushBack (initList (α := Int)) 5) 1) 3) 3
      = .error .logicError := by
  refine ⟨?_, ?_, ?_, ?_⟩
  · intro s v
    constructor
    · by_cases hf : s.isSorted = false
      · simp [binarySearch, hf]
      · rw [binarySearch, if_neg hf]
        constructor
        · intro h
          split at h <;> cases h
        · intro h
          exact absurd h hf
    · by_cases hf : s.isSorted = false
      · simp [binarySearchIndex, hf]
      · rw [binarySearchIndex, if_neg hf]
        constructor
        · intro h
          split at h
          · cases h
          · split at h <;> cases h
        · intro h
          exact absurd h hf
  · intro s v hflag hpair hc
    rw [binarySearch, if_neg (by simp [hflag])]
    by_cases h0 : s.listSize = 0
    · rw [if_pos h0]
      have hel : s.elems = [] := List.length_eq_zero.mp (by omega)
      simp [hel]
    · rw [if_neg h0]
      have hr : s.listSize - 1 < s.elems.length := by omega
      constructor
      · intro h
        have hsome : (bsLoop s.elems v 0 (s.listSize - 1)).isSome = true := by
          simpa using h
        rcases Option.isSome_iff_exists.mp hsome with ⟨m, hm⟩
        obtain ⟨hlt, heq⟩ := bsLoop_some_eq s.elems v 0 (s.listSize - 1) hr m hm
        rw [List.getD_eq_getElem s.elems v hlt] at heq
        exact heq ▸ List.getElem_mem hlt
      · intro hmem
        rcases hloop : bsLoop s.elems v 0 (s.listSize - 1) with _ | m
        · exfalso
          obtain ⟨i, hi, hieq⟩ := List.getElem_of_mem hmem
          refine bsLoop_none_notMem s.elems v hpair 0 (s.listSize - 1) hr hloop i
            (Nat.zero_le i) (by omega) ?_
          rw [List.getD_eq_getElem s.elems v hi, hieq]
        · simp [hloop]
  · refine Or.inr ?_
    have hb : bsLoop [1, 3, 3, 5, 9] (3 : Int) 0 4 = some 2 := by
      rw [bsLoop]
      norm_num [List.getD]
    rw [binarySearchIndex]
    norm_num [hb]
  · rfl

/-- C5 witness: the membership equivalence applied to the concrete
sorted list `[1,2]` and value 2. -/
theorem binarySearch_spec_witness :
    binarySearch (⟨[1, 2], 2, true⟩ : ListState Int) 2 = .ok true
    ↔ (2 : Int) ∈ ([1, 2] : List Int) :=
  binarySearch_spec.2.1 ⟨[1, 2], 2, true⟩ 2 rfl (by decide) rfl

/-- C8: for every list and every comparator, `sort(comparator)` ends
with `sorted == false` — including lists of size 0 or 1, where the code
returns early after clearing the flag (lines 1292-1295) — while leaving
a permutation of the elements; and for size-consistent states and a
comparator that is a strict weak order (asymmetric, with transitive
complement, as `std::sort` requires) the resulting order is consistent
with the comparator: no element strictly precedes one placed before
it. -/
theorem sortWith_spec :
    (∀ (comp : Int → Int → Bool) (s : ListState Int),
      (sortWith comp s).isSorted = false
      ∧ (sortWith comp s).elems.Perm s.elems)
    ∧ (∀ (comp : Int → Int → Bool) (s : ListState Int),
        s.listSize = s.elems.length →
        (∀ a b : Int, comp a b = true → comp b a = false) →
        (∀ a b c : Int, comp b a = false → comp c b = false → comp c a = false) →
        (sortWith comp s).elems.Pairwise (fun a b => comp b a = false)) := by
  constructor
  · intro comp s
    rw [sortWith]
    split
    · exact ⟨rfl, List.Perm.refl _⟩
    · exact ⟨rfl, by simpa [stdSort] using mergeSortBy_perm (fun a b => !(comp b a)) s.elems⟩
  · intro comp s hc hasym hntrans
    rw [sortWith]
    split
    · rename_i hle
      have hgoal : ∀ (l : List Int), l.length ≤ 1 →
          l.Pairwise (fun a b => comp b a = false) := by
        intro l hl
        rcases l with _ | ⟨a, _ | ⟨b, t⟩⟩
        · exact List.Pairwise.nil
        · exact List.pairwise_singleton _ a
        · simp at hl
      exact hgoal s.elems (by omega)
    · have total2 : ∀ a b : Int, (!(comp b a)) = true ∨ (!(comp a b)) = true := by
        intro a b
        by_cases h : comp b a = true
        · right
          simp [hasym b a h]
        · left
          simpa using h
      have trans2 : ∀ a b c : Int,
          (!(comp b a)) = true → (!(comp c b)) = true → (!(comp c a)) = true := by
        intro a b c h1 h2
        simp at h1 h2 ⊢
        exact hntrans a b c h1 h2
      have hp := mergeSortBy_pairwise total2 trans2 s.elems
      exact hp.imp (by intro a b hab; simpa using hab)

/-- C8 witness: the ordering conjunct applied to `<` on the concrete
unsorted list `[3,1,2]`. -/
theorem sortWith_spec_witness :
    (sortWith (fun a b : Int => decide (a < b))
      (⟨[3, 1, 2], 3, false⟩ : ListState Int)).elems.Pairwise
      (fun a b => (decide (b < a)) = false) :=
  sortWith_spec.2 (fun a b : Int => decide (a < b)) ⟨[3, 1, 2], 3, false⟩ rfl
    (by intro a b h; simp at *; omega)
    (by intro a b c h1 h2; simp at *; omega)

end LinkedList
